import Mathlib

/-!
Verification development for the plasmidai repository.

The Python sources are shallowly embedded as executable Lean definitions:

* `src/src/utils.py` — DNA tokenization helpers (`dna_to_tensor`,
  `tensor_to_dna`, `random_roll`).  1-D integer tensors become `List ℕ`,
  DNA strings become `List Char`, and `torch.randint` is modelled by an
  arbitrary stream `rand : ℕ → ℕ` reduced modulo the requested bound
  (every possible sequence of `randint` draws is realised by some stream).
  Python exceptions (`KeyError`, `IndexError`, `AssertionError`,
  `RuntimeError`) become `Option.none`.

* `src/evo/model/utils_evo/VideoMamba.py` — the VisionMamba encoder.
  Floating-point tensors are modelled over exact rationals `ℚ`; numeric
  dtype casts (`.to(torch.float32)` etc.) are therefore the identity.
  Multi-dimensional tensors are `Fin`-indexed functions.

* `src/src/experimental/optimizers.py` — optimizer parameter grouping.
  `nn.Module` trees become an inductive tree of named submodules and
  named parameters; dotted parameter names from `named_parameters` are
  modelled as the already-split list of name components.
-/

namespace Plasmid

/-! ### DNA utilities, from `src/src/utils.py` -/

/-- The `LETTER_TO_BASES` dict (utils.py lines 3-19): IUPAC ambiguity codes
mapped to the list of concrete bases they may stand for. -/
def LETTER_TO_BASES : List (Char × List Char) :=
  [('A', ['A']), ('B', ['C', 'G', 'T']), ('C', ['C']), ('D', ['A', 'G', 'T']),
   ('G', ['G']), ('H', ['A', 'C', 'T']), ('K', ['G', 'T']), ('M', ['A', 'C']),
   ('N', ['A', 'C', 'G', 'T']), ('R', ['A', 'G']), ('S', ['C', 'G']), ('T', ['T']),
   ('V', ['A', 'C', 'G']), ('W', ['A', 'T']), ('Y', ['C', 'T'])]

/-- `INDEX_TO_BASE = "ACGT"` (utils.py line 21). -/
def INDEX_TO_BASE : List Char := ['A', 'C', 'G', 'T']

/-- `BASE_TO_INDEX = {b: i for i, b in enumerate(INDEX_TO_BASE)}` (utils.py
line 22); a missing key (`KeyError`) is `none`. -/
def BASE_TO_INDEX (b : Char) : Option ℕ :=
  INDEX_TO_BASE.findIdx? (fun c => c == b)

/-- The loop body of `dna_to_tensor` (utils.py lines 25-32), recursing over the
input string and threading the position used to consult the random stream.
`torch.randint(len(choices))` at position `pos` is modelled as
`rand pos % choices.length`; a `KeyError` on `LETTER_TO_BASES` is `none`. -/
def dna_to_tensorAux (rand : ℕ → ℕ) : ℕ → List Char → Option (List ℕ)
  | _, [] => some []
  | pos, x :: rest => do
    let choices ← LETTER_TO_BASES.lookup x
    let i := rand pos % choices.length
    let base ← choices.get? i
    let idx ← BASE_TO_INDEX base
    let tail ← dna_to_tensorAux rand (pos + 1) rest
    pure (idx :: tail)

/-- `dna_to_tensor` (utils.py lines 25-32). -/
def dna_to_tensor (rand : ℕ → ℕ) (dna : List Char) : Option (List ℕ) :=
  dna_to_tensorAux rand 0 dna

/-- The decoding loop of `tensor_to_dna` (utils.py lines 38-44): stop at `eos`,
otherwise index into `INDEX_TO_BASE` (an out-of-range index — Python
`IndexError` — is `none`). -/
def tensor_to_dnaAux (eos : ℕ) : List ℕ → Option (List Char)
  | [] => some []
  | idx :: rest =>
    if idx = eos then some []
    else do
      let c ← INDEX_TO_BASE.get? idx
      let tail ← tensor_to_dnaAux eos rest
      pure (c :: tail)

/-- `tensor_to_dna` (utils.py lines 35-44).  The
`assert eos not in BASE_TO_INDEX.values()` guard (values are `{0,1,2,3}`)
failing is `none`. -/
def tensor_to_dna (sequence : List ℕ) (eos : ℕ) : Option (List Char) :=
  if eos ∈ ([0, 1, 2, 3] : List ℕ) then none else tensor_to_dnaAux eos sequence

/-- `torch.roll(s, shifts=shift, dims=0)` on a 1-D tensor: output index `i`
holds the input element at index `(i - shift) mod n`. -/
def torchRoll {α : Type} (s : List α) (shift : ℕ) : List α :=
  List.ofFn (fun i : Fin s.length =>
    s.get ⟨(i.val + s.length - shift % s.length) % s.length, Nat.mod_lt _ i.pos⟩)

/-- `random_roll` (utils.py lines 47-50): `shift = torch.randint(len(s))`,
then roll.  `torch.randint(0)` raises, modelled as `none` on the empty list. -/
def random_roll {α : Type} (rand : ℕ → ℕ) (s : List α) : Option (List α) :=
  if s.length = 0 then none
  else some (torchRoll s (rand 0 % s.length))

/-! #### Claims C9 and C10 -/

theorem dna_roundtripAux (rand : ℕ → ℕ) (eos : ℕ)
    (he : eos ∉ ([0, 1, 2, 3] : List ℕ)) :
    ∀ (s : List Char), (∀ c ∈ s, c = 'A' ∨ c = 'C' ∨ c = 'G' ∨ c = 'T') →
    ∀ (pos : ℕ), ∃ t, dna_to_tensorAux rand pos s = some t ∧
      tensor_to_dnaAux eos t = some s := by
  intro s
  induction s with
  | nil => intro _ pos; exact ⟨[], rfl, rfl⟩
  | cons c rest ih =>
    intro hs pos
    obtain ⟨tail, htail, hdec⟩ := ih (fun x hx => hs x (List.mem_cons_of_mem c hx)) (pos + 1)
    simp only [List.mem_cons, forall_eq_or_imp] at hs
    have he0 : eos ≠ 0 := by intro h; exact he (by simp [h])
    have he1 : eos ≠ 1 := by intro h; exact he (by simp [h])
    have he2 : eos ≠ 2 := by intro h; exact he (by simp [h])
    have he3 : eos ≠ 3 := by intro h; exact he (by simp [h])
    rcases hs.1 with h | h | h | h <;> subst h
    · have hl : LETTER_TO_BASES.lookup 'A' = some ['A'] := by decide
      have hb : BASE_TO_INDEX 'A' = some 0 := by decide
      exact ⟨0 :: tail, by simp [dna_to_tensorAux, hl, hb, Nat.mod_one, htail],
        by simp [tensor_to_dnaAux, Ne.symm he0, INDEX_TO_BASE, hdec]⟩
    · have hl : LETTER_TO_BASES.lookup 'C' = some ['C'] := by decide
      have hb : BASE_TO_INDEX 'C' = some 1 := by decide
      exact ⟨1 :: tail, by simp [dna_to_tensorAux, hl, hb, Nat.mod_one, htail],
        by simp [tensor_to_dnaAux, Ne.symm he1, INDEX_TO_BASE, hdec]⟩
    · have hl : LETTER_TO_BASES.lookup 'G' = some ['G'] := by decide
      have hb : BASE_TO_INDEX 'G' = some 2 := by decide
      exact ⟨2 :: tail, by simp [dna_to_tensorAux, hl, hb, Nat.mod_one, htail],
        by simp [tensor_to_dnaAux, Ne.symm he2, INDEX_TO_BASE, hdec]⟩
    · have hl : LETTER_TO_BASES.lookup 'T' = some ['T'] := by decide
      have hb : BASE_TO_INDEX 'T' = some 3 := by decide
      exact ⟨3 :: tail, by simp [dna_to_tensorAux, hl, hb, Nat.mod_one, htail],
        by simp [tensor_to_dnaAux, Ne.symm he3, INDEX_TO_BASE, hdec]⟩

/-- C9: for every DNA string made only of the unambiguous letters A, C, G, T
and every eos value outside {0,1,2,3}, `tensor_to_dna (dna_to_tensor s) eos`
returns `s` exactly, for every behaviour of the random number stream. -/
theorem c9_dna_roundtrip (rand : ℕ → ℕ) (s : List Char) (eos : ℕ)
    (hs : ∀ c ∈ s, c = 'A' ∨ c = 'C' ∨ c = 'G' ∨ c = 'T')
    (he : eos ∉ ([0, 1, 2, 3] : List ℕ)) :
    ∃ t, dna_to_tensor rand s = some t ∧ tensor_to_dna t eos = some s := by
  obtain ⟨t, h1, h2⟩ := dna_roundtripAux rand eos he s hs 0
  refine ⟨t, h1, ?_⟩
  simpa [tensor_to_dna, he] using h2

/-- C9 witness: the roundtrip at the concrete string "ACGT", eos 4, and the
all-zeros random stream. -/
theorem c9_dna_roundtrip_witness :
    ∃ t, dna_to_tensor (fun _ => 0) ['A', 'C', 'G', 'T'] = some t ∧
      tensor_to_dna t 4 = some ['A', 'C', 'G', 'T'] :=
  c9_dna_roundtrip (fun _ => 0) ['A', 'C', 'G', 'T'] 4 (by decide) (by decide)

theorem torchRoll_eq_rotate {α : Type} (s : List α) (shift : ℕ) (hs : s ≠ []) :
    torchRoll s shift = s.rotate (s.length - shift % s.length) := by
  have hn : 0 < s.length := List.length_pos.mpr hs
  have hk : shift % s.length < s.length := Nat.mod_lt _ hn
  apply List.ext_get
  · simp [torchRoll, List.length_rotate]
  · intro i h1 h2
    rw [List.get_rotate]
    simp only [torchRoll, List.get_ofFn]
    congr 1
    simp only [List.length_ofFn] at h1
    have : i + (s.length - shift % s.length) = i + s.length - shift % s.length := by
      omega
    simp [this]

/-- C10: `random_roll` on a non-empty list returns a cyclic rotation: same
length, elementwise `out[i] = s[(i - k) mod n]` for a shift `k < n`, and the
multiset of elements is preserved (the output is a permutation of the input). -/
theorem c10_random_roll_rotation {α : Type} (rand : ℕ → ℕ) (s : List α)
    (hs : s ≠ []) :
    ∃ out, random_roll rand s = some out ∧ out.length = s.length ∧
      (∃ k, k < s.length ∧ ∀ i, i < s.length →
        out.get? i = s.get? ((((i : ℤ) - (k : ℤ)) % (s.length : ℤ)).toNat)) ∧
      List.Perm out s := by
  have hn : 0 < s.length := List.length_pos.mpr hs
  have hlen : s.length ≠ 0 := by omega
  refine ⟨torchRoll s (rand 0 % s.length), by simp [random_roll, hlen], ?_, ?_, ?_⟩
  · simp [torchRoll]
  · refine ⟨rand 0 % s.length % s.length, Nat.mod_lt _ hn, ?_⟩
    intro i hi
    set k := rand 0 % s.length % s.length with hkdef
    have hk : k < s.length := Nat.mod_lt _ hn
    have hidx : (((i : ℤ) - (k : ℤ)) % (s.length : ℤ)).toNat
        = (i + s.length - k) % s.length := by
      have h1 : (i : ℤ) - (k : ℤ) = ((i + s.length - k : ℕ) : ℤ) + (s.length : ℤ) * (-1) := by
        push_cast [Nat.cast_sub (by omega : k ≤ i + s.length)]
        ring
      rw [h1, Int.add_mul_emod_self_left]
      rw [show ((i + s.length - k : ℕ) : ℤ) % (s.length : ℤ)
            = (((i + s.length - k) % s.length : ℕ) : ℤ) by push_cast; ring]
      exact Int.toNat_natCast _
    rw [hidx]
    have hi' : i < (torchRoll s (rand 0 % s.length)).length := by simp [torchRoll, hi]
    rw [List.get?_eq_get hi', List.get?_eq_get (Nat.mod_lt _ hn)]
    simp only [torchRoll, List.get_ofFn]
    congr 2
  · rw [torchRoll_eq_rotate s _ hs]
    exact List.rotate_perm s _

/-- C10 witness: rolling the concrete list [10, 20, 30] with a stream that
draws 2. -/
theorem c10_random_roll_rotation_witness :
    ∃ out, random_roll (fun _ => 2) [10, 20, 30] = some out ∧
      out.length = ([10, 20, 30] : List ℕ).length ∧
      (∃ k, k < ([10, 20, 30] : List ℕ).length ∧ ∀ i, i < ([10, 20, 30] : List ℕ).length →
        out.get? i = ([10, 20, 30] : List ℕ).get?
          ((((i : ℤ) - (k : ℤ)) % (([10, 20, 30] : List ℕ).length : ℤ)).toNat)) ∧
      List.Perm out [10, 20, 30] :=
  c10_random_roll_rotation (fun _ => 2) [10, 20, 30] (by decide)

/-! ### Weight inflation, from `VideoMamba.py` lines 411-421 -/

/-- A 4-D float tensor (a conv weight `(out, in, h, w)`) over exact rationals. -/
def Tensor4 (a b c d : ℕ) : Type := Fin a → Fin b → Fin c → Fin d → ℚ

/-- A 5-D float tensor `(out, in, time, h, w)` over exact rationals. -/
def Tensor5 (a b t c d : ℕ) : Type := Fin a → Fin b → Fin t → Fin c → Fin d → ℚ

/-- `torch.zeros(*weight_2d.shape)` for a 4-D weight. -/
def zeros4 (a b c d : ℕ) : Tensor4 a b c d := fun _ _ _ _ => 0

/-- `x.unsqueeze(2).repeat(1, 1, time_dim, 1, 1)`: insert a temporal axis at
position 2 and replicate the 4-D tensor along it. -/
def unsqueeze2Repeat {a b c d : ℕ} (x : Tensor4 a b c d) (t : ℕ) :
    Tensor5 a b t c d := fun o i _ h w => x o i h w

/-- The slice assignment `x[:, :, idx, :, :] = v`. -/
def setTimeSlice {a b t c d : ℕ} (x : Tensor5 a b t c d) (idx : ℕ)
    (v : Tensor4 a b c d) : Tensor5 a b t c d :=
  fun o i tt h w => if tt.val = idx then v o i h w else x o i tt h w

/-- Elementwise division of a 5-D tensor by a scalar, `x / time_dim`. -/
def divScalar {a b t c d : ℕ} (x : Tensor5 a b t c d) (n : ℕ) :
    Tensor5 a b t c d := fun o i tt h w => x o i tt h w / (n : ℚ)

/-- `inflate_weight(weight_2d, time_dim, center)` (VideoMamba.py lines
411-421).  With `center`, a zero tensor gains a temporal axis of size
`time_dim` and the original weight is written at temporal index
`time_dim // 2`; otherwise the weight is replicated along the temporal axis
and divided by `time_dim`. -/
def inflate_weight {a b c d : ℕ} (weight_2d : Tensor4 a b c d) (time_dim : ℕ)
    (center : Bool) : Tensor5 a b time_dim c d :=
  if center then
    setTimeSlice (unsqueeze2Repeat (zeros4 a b c d) time_dim) (time_dim / 2) weight_2d
  else
    divScalar (unsqueeze2Repeat weight_2d time_dim) time_dim

/-! #### Claims C5 and C6 -/

/-- C5: with `center = true` and any `time_dim ≥ 1`, the inflated weight's
temporal slice at index `time_dim / 2` equals the input weight exactly, and
every other temporal slice is zero (stated as one pointwise equation). -/
theorem c5_inflate_center {a b c d : ℕ} (w : Tensor4 a b c d) (t : ℕ)
    (ht : 1 ≤ t) (o : Fin a) (i : Fin b) (tt : Fin t) (h : Fin c) (w' : Fin d) :
    inflate_weight w t true o i tt h w' =
      if tt.val = t / 2 then w o i h w' else 0 := by
  simp [inflate_weight, setTimeSlice, unsqueeze2Repeat, zeros4]

/-- C5 witness: a concrete 1×1×1×1 weight with value 5 inflated to 3 temporal
slices; the middle slice (index 1 = 3 / 2) carries the weight. -/
theorem c5_inflate_center_witness :
    inflate_weight ((fun _ _ _ _ => (5 : ℚ)) : Tensor4 1 1 1 1) 3 true 0 0 1 0 0 =
      if (1 : Fin 3).val = 3 / 2
      then ((fun _ _ _ _ => (5 : ℚ)) : Tensor4 1 1 1 1) 0 0 0 0 else 0 :=
  c5_inflate_center ((fun _ _ _ _ => (5 : ℚ)) : Tensor4 1 1 1 1) 3 (by decide) 0 0 1 0 0

/-- C6: with `center = false` and any `time_dim ≥ 1`, every temporal slice of
the inflated weight equals the input divided by `time_dim`, and summing over
the temporal axis reconstructs the input exactly (over exact rationals). -/
theorem c6_inflate_average {a b c d : ℕ} (w : Tensor4 a b c d) (t : ℕ)
    (ht : 1 ≤ t) (o : Fin a) (i : Fin b) (tt : Fin t) (h : Fin c) (w' : Fin d) :
    inflate_weight w t false o i tt h w' = w o i h w' / (t : ℚ) ∧
      (Finset.univ.sum (fun ts : Fin t => inflate_weight w t false o i ts h w')
        = w o i h w') := by
  constructor
  · simp [inflate_weight, divScalar, unsqueeze2Repeat]
  · have hconst : ∀ ts : Fin t, inflate_weight w t false o i ts h w'
        = w o i h w' / (t : ℚ) := by
      intro ts
      simp [inflate_weight, divScalar, unsqueeze2Repeat]
    rw [Finset.sum_congr rfl (fun ts _ => hconst ts)]
    rw [Finset.sum_const, Finset.card_univ, Fintype.card_fin, nsmul_eq_mul]
    rw [mul_div_cancel₀]
    exact Nat.cast_ne_zero.mpr (by omega)

/-- C6 witness: the averaging inflation of a concrete 1×1×1×1 weight with
value 5 across 3 temporal slices. -/
theorem c6_inflate_average_witness :
    inflate_weight ((fun _ _ _ _ => (5 : ℚ)) : Tensor4 1 1 1 1) 3 false 0 0 1 0 0
        = ((fun _ _ _ _ => (5 : ℚ)) : Tensor4 1 1 1 1) 0 0 0 0 / ((3 : ℕ) : ℚ) ∧
      (Finset.univ.sum
          (fun ts : Fin 3 =>
            inflate_weight ((fun _ _ _ _ => (5 : ℚ)) : Tensor4 1 1 1 1) 3 false 0 0 ts 0 0)
        = ((fun _ _ _ _ => (5 : ℚ)) : Tensor4 1 1 1 1) 0 0 0 0) :=
  c6_inflate_average ((fun _ _ _ _ => (5 : ℚ)) : Tensor4 1 1 1 1) 3 (by decide) 0 0 1 0 0

/-! ### Stochastic-depth schedule, from `VisionMamba.__init__`
(VideoMamba.py lines 268-293) -/

/-- `torch.linspace(a, b, steps)` over exact rationals: `steps` evenly spaced
points from `a` to `b` inclusive; a single step yields just the start point. -/
def linspace (a b : ℚ) (steps : ℕ) : List ℚ :=
  if steps = 1 then [a]
  else (List.range steps).map (fun i : ℕ => a + (b - a) * (i : ℚ) / ((steps - 1 : ℕ) : ℚ))

/-- `inter_dpr = [0.0] + dpr` where
`dpr = [x.item() for x in torch.linspace(0, drop_path_rate, depth)]`
(VideoMamba.py lines 268-271). -/
def interDpr (drop_path_rate : ℚ) (depth : ℕ) : List ℚ :=
  (0 : ℚ) :: linspace 0 drop_path_rate depth

/-- The per-block stochastic-depth rates fixed at construction: block `i`
(for `i` in `range(depth)`) is created with `drop_path=inter_dpr[i]`
(VideoMamba.py lines 277-293), i.e. the first `depth` entries of `inter_dpr`. -/
def dropPathRates (drop_path_rate : ℚ) (depth : ℕ) : List ℚ :=
  (interDpr drop_path_rate depth).take depth

/-! #### Claim C1 -/

/-- Closed form of the per-block schedule: block 0 gets rate 0, and block
`i ≥ 1` gets `r * (i - 1) / (depth - 1)`. -/
theorem dropPathRates_eq (r : ℚ) (depth : ℕ) :
    dropPathRates r depth = (List.range depth).map
      (fun i => if i = 0 then (0 : ℚ) else r * ((i - 1 : ℕ) : ℚ) / ((depth - 1 : ℕ) : ℚ)) := by
  match depth with
  | 0 => rfl
  | 1 => simp [dropPathRates, interDpr, linspace]
  | (m + 2) =>
    have hs : (m + 2 : ℕ) ≠ 1 := by omega
    rw [dropPathRates, interDpr, linspace, if_neg hs]
    rw [List.take_succ_cons, ← List.map_take, List.take_range, min_eq_left (by omega)]
    conv_rhs => rw [List.range_succ_eq_map]
    rw [List.map_cons, List.map_map]
    congr 1
    simp

theorem getLast?_map_range {f : ℕ → ℚ} {n : ℕ} (hn : 1 ≤ n) :
    ((List.range n).map f).getLast? = some (f (n - 1)) := by
  match n with
  | (m + 1) =>
    rw [List.range_succ]
    simp

/-- C1 counterexample: at `depth = 2` and maximum rate `r = 1/10`, the last
block's rate is 0, not `r` — `inter_dpr` shifts the linspace schedule by one
and the blocks consume only its first `depth` entries, so the endpoint `r`
is never assigned to a block. -/
theorem c1_counterexample :
    (dropPathRates (1 / 10) 2).getLast? = some 0 ∧ (0 : ℚ) ≠ 1 / 10 := by
  constructor
  · rw [dropPathRates_eq]
    norm_num [List.range_succ]
  · norm_num

/-- C1 amended: for every `depth ≥ 1` and maximum rate `r ≥ 0`, the schedule
has one rate per block, block 0's rate is 0 and the rates are monotonically
non-decreasing, but the last block's rate is `r * (depth - 2) / (depth - 1)`
(which is 0 for `depth ≤ 2`), not `r`. -/
theorem c1_amended (r : ℚ) (depth : ℕ) (hd : 1 ≤ depth) (hr : 0 ≤ r) :
    (dropPathRates r depth).length = depth ∧
      (dropPathRates r depth).head? = some 0 ∧
      List.Chain' (· ≤ ·) (dropPathRates r depth) ∧
      (dropPathRates r depth).getLast?
        = some (r * ((depth - 2 : ℕ) : ℚ) / ((depth - 1 : ℕ) : ℚ)) := by
  rw [dropPathRates_eq]
  refine ⟨by simp, ?_, ?_, ?_⟩
  · match depth, hd with
    | (m + 1), _ => rw [List.range_succ_eq_map]; simp
  · rw [List.chain'_iff_get]
    intro i hi
    simp only [List.length_map, List.length_range] at hi
    have h2 : 2 ≤ depth := by omega
    simp only [List.get_map]
    have hgi : ((List.range depth).get ⟨i, by simp; omega⟩) = i := by
      simp [List.get_range]
    have hgi1 : ((List.range depth).get ⟨i + 1, by simp; omega⟩) = i + 1 := by
      simp [List.get_range]
    rw [hgi, hgi1]
    by_cases h0 : i = 0
    · subst h0
      simp
    · rw [if_neg h0, if_neg (by omega : ¬ (i + 1 = 0))]
      have hden : (0 : ℚ) ≤ ((depth - 1 : ℕ) : ℚ) := by positivity
      have hnum : ((i - 1 : ℕ) : ℚ) ≤ ((i + 1 - 1 : ℕ) : ℚ) := by
        have h' : (i - 1 : ℕ) ≤ (i + 1 - 1 : ℕ) := by omega
        exact_mod_cast h'
      exact div_le_div_of_nonneg_right (mul_le_mul_of_nonneg_left hnum hr) hden
  · rw [getLast?_map_range hd]
    by_cases h1 : depth = 1
    · subst h1
      norm_num
    · rw [if_neg (by omega)]
      rfl

/-- C1 amended witness: the schedule at `depth = 3`, `r = 1`: rates are
`[0, 0, 1/2]`. -/
theorem c1_amended_witness :
    (dropPathRates 1 3).length = 3 ∧
      (dropPathRates 1 3).head? = some 0 ∧
      List.Chain' (· ≤ ·) (dropPathRates 1 3) ∧
      (dropPathRates 1 3).getLast?
        = some (1 * ((3 - 2 : ℕ) : ℚ) / ((3 - 1 : ℕ) : ℚ)) :=
  c1_amended 1 3 (by decide) zero_le_one

/-! ### NormResidualBlock, from `Block.forward` (VideoMamba.py lines 78-119)

Tensors are abstracted to an additive type `V` (elementwise addition is the
only tensor operation `Block.forward` performs itself); the normalization
layer, the mixer and the drop-path module are arbitrary functions shared by
both execution paths, exactly as `self.norm`, `self.mixer` and
`self.drop_path` are the same objects whichever branch runs.  Over exact
arithmetic the dtype casts (`.to(dtype)`, `residual_in_fp32`) are the
identity and are dropped. -/

/-- The functions owned by one `Block`: its normalization layer, its mixer and
its drop-path module (one fixed sampled behaviour of `DropPath`). -/
structure BlockFns (V : Type) where
  norm : V → V
  mixer : V → V
  dropPath : V → V

/-- Modelled from the spec: `torch.utils.checkpoint.checkpoint(f, x)`
(activation recomputation, external to this repository) must produce the
identical forward output as calling `f x` directly. -/
def checkpointApply {V : Type} (f : V → V) (x : V) : V := f x

/-- Modelled from the spec: the fused add-norm kernel (`layer_norm_fn` /
`rms_norm_fn` from `mamba_ssm.ops.triton.layernorm`, external to this
repository).  Per spec §4.1, with `prenorm=True` it "simultaneously adds the
(stochastic-depth-scaled) hidden state into the residual and normalizes the
result, returning both"; over exact arithmetic `residual_in_fp32` is the
identity. -/
def fusedAddNormFn {V : Type} [Add V] (norm : V → V) (x : V)
    (residual : Option V) : V × V :=
  let residualOut := match residual with
    | some r => r + x
    | none => x
  (norm residualOut, residualOut)

/-- `Block.forward(hidden_states, residual, inference_params, use_checkpoint)`
(VideoMamba.py lines 78-119), returning the pair
`(new_hidden_states, new_residual)`. -/
def blockForward {V : Type} [Add V] (fused_add_norm : Bool) (fns : BlockFns V)
    (use_checkpoint : Bool) (hidden_states : V) (residual : Option V) : V × V :=
  let (hs, res) :=
    if ¬ fused_add_norm then
      let res := match residual with
        | some r => r + fns.dropPath hidden_states
        | none => hidden_states
      (fns.norm res, res)
    else
      fusedAddNormFn fns.norm
        (match residual with
          | none => hidden_states
          | some _ => fns.dropPath hidden_states)
        residual
  if use_checkpoint then (checkpointApply fns.mixer hs, res)
  else (fns.mixer hs, res)

/-! #### Claim C3 -/

/-- C3: for identical parameters (same norm, mixer and drop-path behaviour)
and identical inputs, the fused and unfused execution paths of
`Block.forward` return equal outputs — both the new hidden state and the new
residual — over exact arithmetic (hence equal within floating-point
tolerance). -/
theorem c3_fused_unfused_equal {V : Type} [Add V] (fns : BlockFns V)
    (use_checkpoint : Bool) (hidden_states : V) (residual : Option V) :
    blockForward true fns use_checkpoint hidden_states residual
      = blockForward false fns use_checkpoint hidden_states residual := by
  cases residual <;>
    simp [blockForward, fusedAddNormFn, checkpointApply]

/-! ### StackedEncoder forward shape, from `VisionMamba.forward_features`
(VideoMamba.py lines 344-402)

The claim C4 is about tensor shapes, so the forward pass is embedded at the
shape level: a tensor is represented by its shape, and each step maps input
shape to output shape (`none` = the step raises). -/

/-- Shape of a 2-D tensor `(rows, channels)`. -/
structure Shape2 where
  n : ℕ
  c : ℕ
deriving DecidableEq

/-- Shape of a 3-D tensor `(batch, tokens, channels)`. -/
structure Shape3 where
  b : ℕ
  t : ℕ
  c : ℕ
deriving DecidableEq

/-- The constructor configuration of `VisionMamba` relevant to the forward
shape: `depth`, `output_evo_num_channels`, `embed_dim`, `num_tokens`
(VideoMamba.py lines 220-247). -/
structure VisionMambaCfg where
  depth : ℕ
  output_evo_num_channels : ℕ
  embed_dim : ℕ
  num_tokens : ℕ

/-- `nn.Linear(input_channels, embed_dim)` applied to a 2-D input
(`Embedding.forward`, VideoMamba.py lines 205-216): requires the last
dimension to equal `input_channels` and maps it to `embed_dim`. -/
def embeddingForward (input_channels embed_dim : ℕ) (x : Shape2) : Option Shape2 :=
  if x.c = input_channels then some ⟨x.n, embed_dim⟩ else none

/-- `rearrange(x, "(b t) c -> b t c", t=self.sequence_length)` (VideoMamba.py
line 349): einops raises a shape error unless the flattened leading dimension
is evenly divisible by `t`. -/
def rearrangeBtC (t : ℕ) (x : Shape2) : Option Shape3 :=
  if 0 < t ∧ x.n % t = 0 then some ⟨x.n / t, t, x.c⟩ else none

/-- Modelled from the spec: one `NormResidualBlock` invocation is
shape-preserving — the Mixer is an external same-shaped sequence-to-sequence
primitive (spec §2), and norm, drop-path and the residual addition are
elementwise. -/
def blockShape (s : Shape3) : Shape3 := s

/-- Modelled from the spec: the final (fused or unfused) normalization stage
with `prenorm=False` returns one normalized tensor of the same shape
(VideoMamba.py lines 381-400). -/
def normFShape (s : Shape3) : Shape3 := s

/-- `VisionMamba.forward_features` (VideoMamba.py lines 344-402) at the shape
level: embedding projection, reshape to `(b, t, c)`, positional dropout
(shape-preserving), the loop over the `depth` blocks, final normalization. -/
def forward_features (cfg : VisionMambaCfg) (x : Shape2) : Option Shape3 := do
  let e ← embeddingForward cfg.output_evo_num_channels cfg.embed_dim x
  let s ← rearrangeBtC cfg.num_tokens e
  let s := (List.range cfg.depth).foldl (fun acc _ => blockShape acc) s
  pure (normFShape s)

/-! #### Claim C4 -/

theorem foldl_blockShape (s : Shape3) (l : List ℕ) :
    l.foldl (fun acc _ => blockShape acc) s = s := by
  induction l generalizing s with
  | nil => rfl
  | cons a rest ih => simp [List.foldl_cons, blockShape, ih]

/-- C4: when the flattened leading dimension is `B * num_tokens` the forward
pass returns shape `(B, num_tokens, embed_dim)`; when it is not evenly
divisible by `num_tokens` the reshape step fails immediately with a shape
error. -/
theorem c4_forward_shape (cfg : VisionMambaCfg) (x : Shape2) (B : ℕ)
    (ht : 0 < cfg.num_tokens) (hc : x.c = cfg.output_evo_num_channels) :
    (x.n = B * cfg.num_tokens →
      forward_features cfg x = some ⟨B, cfg.num_tokens, cfg.embed_dim⟩) ∧
    (¬ cfg.num_tokens ∣ x.n → forward_features cfg x = none) := by
  constructor
  · intro hB
    have hmod : x.n % cfg.num_tokens = 0 := by
      rw [hB]; exact Nat.mul_mod_left B cfg.num_tokens
    have hdiv : x.n / cfg.num_tokens = B := by
      rw [hB]; exact Nat.mul_div_cancel B ht
    simp [forward_features, embeddingForward, hc, rearrangeBtC, ht, hmod,
      foldl_blockShape, normFShape, hdiv]
  · intro hnd
    have hmod : ¬ (x.n % cfg.num_tokens = 0) := by
      intro h
      exact hnd (Nat.dvd_iff_mod_eq_zero.mpr h)
    simp [forward_features, embeddingForward, hc, rearrangeBtC, hmod]

/-- C4 witness: a configuration with 3 tokens per sequence and embedding
dimension 5 maps a flattened input of 6 rows (batch 2) to shape (2, 3, 5). -/
theorem c4_forward_shape_witness :
    forward_features ⟨4, 7, 5, 3⟩ ⟨6, 7⟩ = some ⟨2, 3, 5⟩ :=
  (c4_forward_shape ⟨4, 7, 5, 3⟩ ⟨6, 7⟩ 2 (by decide) rfl).1 rfl

/-! ### Checkpoint loading, from `load_state_dict` (VideoMamba.py lines
424-438)

A checkpoint is a dict from parameter-name strings to tensors, modelled as an
association list over an abstract tensor type `τ` equipped with a shape map
and the inflation function (so the claims hold for every tensor
representation).  The live model contributes only its own state dict's
shapes.  Python's `del` on a missing key raises `KeyError`, modelled as
`none`. -/

/-- The mutation loop of `load_state_dict` (VideoMamba.py lines 426-433): for
every checkpoint key also present in the model's state dict with a different
shape, leave it alone when the live parameter's rank is at most 3, otherwise
replace it by `inflate_weight(v, time_dim, center)` with `time_dim` the live
parameter's third dimension (`state_dict_3d[k].shape[2]`). -/
def processStateDict {τ : Type} (shape : τ → List ℕ) (inflateFn : τ → ℕ → Bool → τ)
    (center : Bool) (modelSD : List (String × List ℕ)) :
    List (String × τ) → List (String × τ)
  | [] => []
  | (k, v) :: rest =>
    let v' := match modelSD.lookup k with
      | some ms =>
        if shape v ≠ ms then
          if ms.length ≤ 3 then v else inflateFn v (ms.getD 2 0) center
        else v
      | none => v
    (k, v') :: processStateDict shape inflateFn center modelSD rest

/-- Python `del state_dict[k]`: remove the key, or raise `KeyError` (`none`)
when it is absent. -/
def delKey {τ : Type} (sd : List (String × τ)) (k : String) :
    Option (List (String × τ)) :=
  if sd.any (fun e => e.1 == k) then some (sd.filter (fun e => !(e.1 == k)))
  else none

/-- `load_state_dict(model, state_dict, center)` (VideoMamba.py lines
424-438): inflate shape-mismatched entries, then unconditionally
`del state_dict["head.weight"]` and `del state_dict["head.bias"]`, and apply
the result with `strict=False` (the non-strict merge tolerates key
mismatches, so the applied state is the surviving dict itself). -/
def load_state_dict {τ : Type} (shape : τ → List ℕ) (inflateFn : τ → ℕ → Bool → τ)
    (center : Bool) (modelSD : List (String × List ℕ))
    (state_dict : List (String × τ)) : Option (List (String × τ)) := do
  let sd1 := processStateDict shape inflateFn center modelSD state_dict
  let sd2 ← delKey sd1 "head.weight"
  let sd3 ← delKey sd2 "head.bias"
  pure sd3

/-! #### Claims C2 and C8 -/

theorem processStateDict_keys {τ : Type} (shape : τ → List ℕ)
    (inflateFn : τ → ℕ → Bool → τ) (center : Bool)
    (modelSD : List (String × List ℕ)) (sd : List (String × τ)) :
    (processStateDict shape inflateFn center modelSD sd).map Prod.fst
      = sd.map Prod.fst := by
  induction sd with
  | nil => rfl
  | cons e rest ih =>
    obtain ⟨k, v⟩ := e
    simp [processStateDict, ih]

/-- C2 counterexample: on a checkpoint that lacks the classification-head
keys (here the empty checkpoint) `load_state_dict` raises a `KeyError`
(`none`) instead of returning normally, because the two `del` statements are
unconditional. -/
theorem c2_counterexample :
    load_state_dict (fun _ : ℕ => ([] : List ℕ)) (fun v _ _ => v) true [] [] = none :=
  rfl

theorem any_key_exists {τ : Type} (l : List (String × τ)) (s : String) :
    (l.any (fun e => e.1 == s)) = true ↔ s ∈ l.map Prod.fst := by
  rw [List.any_eq_true]
  constructor
  · rintro ⟨x, hx, hxs⟩
    rw [beq_iff_eq] at hxs
    exact hxs ▸ List.mem_map_of_mem Prod.fst hx
  · intro h
    obtain ⟨e, he, heq⟩ := List.mem_map.mp h
    exact ⟨e, he, by simp [heq]⟩

/-- C2 amended: the two classification-head keys never appear in the applied
state — when both are present in the checkpoint the load succeeds and removes
them — but a checkpoint missing `head.weight`, or missing `head.bias`, makes
`load_state_dict` raise a `KeyError` rather than return. -/
theorem c2_amended {τ : Type} (shape : τ → List ℕ) (inflateFn : τ → ℕ → Bool → τ)
    (center : Bool) (modelSD : List (String × List ℕ)) :
    (∀ sd : List (String × τ),
      "head.weight" ∈ sd.map Prod.fst → "head.bias" ∈ sd.map Prod.fst →
      ∃ out, load_state_dict shape inflateFn center modelSD sd = some out ∧
        "head.weight" ∉ out.map Prod.fst ∧ "head.bias" ∉ out.map Prod.fst) ∧
    (∀ sd : List (String × τ), "head.weight" ∉ sd.map Prod.fst →
      load_state_dict shape inflateFn center modelSD sd = none) ∧
    (∀ sd : List (String × τ), "head.bias" ∉ sd.map Prod.fst →
      load_state_dict shape inflateFn center modelSD sd = none) := by
  refine ⟨?_, ?_, ?_⟩
  · intro sd hw hb
    have hw1 : ((processStateDict shape inflateFn center modelSD sd).any
        (fun e => e.1 == "head.weight")) = true := by
      rw [any_key_exists, processStateDict_keys]
      exact hw
    have hbP : "head.bias" ∈ (processStateDict shape inflateFn center modelSD sd).map
        Prod.fst := by rw [processStateDict_keys]; exact hb
    obtain ⟨e, he, heq⟩ := List.mem_map.mp hbP
    have heF : e ∈ (processStateDict shape inflateFn center modelSD sd).filter
        (fun x => !(x.1 == "head.weight")) :=
      List.mem_filter.mpr ⟨he, by simp [heq]⟩
    have hb1 : (((processStateDict shape inflateFn center modelSD sd).filter
        (fun x => !(x.1 == "head.weight"))).any (fun x => x.1 == "head.bias"))
          = true := List.any_eq_true.mpr ⟨e, heF, by simp [heq]⟩
    refine ⟨(((processStateDict shape inflateFn center modelSD sd).filter
        (fun x => !(x.1 == "head.weight"))).filter
          (fun x => !(x.1 == "head.bias"))), ?_, ?_, ?_⟩
    · simp [load_state_dict, delKey, hw1, hb1]
    · intro hmem
      obtain ⟨x, hx, hxeq⟩ := List.mem_map.mp hmem
      have hx1 := List.of_mem_filter (List.mem_of_mem_filter hx)
      simp [hxeq] at hx1
    · intro hmem
      obtain ⟨x, hx, hxeq⟩ := List.mem_map.mp hmem
      have hx1 := List.of_mem_filter hx
      simp [hxeq] at hx1
  · intro sd hw
    have hw0 : ((processStateDict shape inflateFn center modelSD sd).any
        (fun e => e.1 == "head.weight")) = false := by
      cases h : ((processStateDict shape inflateFn center modelSD sd).any
          (fun e => e.1 == "head.weight")) with
      | false => rfl
      | true =>
        rw [any_key_exists, processStateDict_keys] at h
        exact absurd h hw
    simp [load_state_dict, delKey, hw0]
  · intro sd hb
    by_cases hw : ((processStateDict shape inflateFn center modelSD sd).any
        (fun e => e.1 == "head.weight")) = true
    · have hb0 : (((processStateDict shape inflateFn center modelSD sd).filter
          (fun x => !(x.1 == "head.weight"))).any (fun x => x.1 == "head.bias"))
            = false := by
        cases h : (((processStateDict shape inflateFn center modelSD sd).filter
            (fun x => !(x.1 == "head.weight"))).any (fun x => x.1 == "head.bias")) with
        | false => rfl
        | true =>
          obtain ⟨x, hx, hxs⟩ := List.any_eq_true.mp h
          rw [beq_iff_eq] at hxs
          have hx1 : x.1 ∈ (processStateDict shape inflateFn center modelSD sd).map
              Prod.fst := List.mem_map_of_mem Prod.fst (List.mem_of_mem_filter hx)
          rw [processStateDict_keys] at hx1
          exact absurd (hxs ▸ hx1) hb
      simp [load_state_dict, delKey, hw, hb0]
    · simp only [Bool.not_eq_true] at hw
      simp [load_state_dict, delKey, hw]

/-- C2 amended witness: a checkpoint holding exactly the two head keys loads
to a state without them. -/
theorem c2_amended_witness :
    ∃ out, load_state_dict (fun _ : ℕ => ([] : List ℕ)) (fun v _ _ => v) true []
        [("head.weight", 1), ("head.bias", 2)] = some out ∧
      "head.weight" ∉ out.map Prod.fst ∧ "head.bias" ∉ out.map Prod.fst :=
  (c2_amended (fun _ : ℕ => ([] : List ℕ)) (fun v _ _ => v) true []).1
    [("head.weight", 1), ("head.bias", 2)] (by decide) (by decide)

/-- C8: for a checkpoint entry whose key is also in the live model with a
different shape, the processed checkpoint keeps the entry unmodified when the
live parameter's rank is at most 3, and replaces it by
`inflate_weight(v, live_shape[2], center)` only when the rank exceeds 3
(stated as one membership with the branch as an `if`). -/
theorem c8_inflation_policy {τ : Type} (shape : τ → List ℕ)
    (inflateFn : τ → ℕ → Bool → τ) (center : Bool)
    (modelSD : List (String × List ℕ)) (sd : List (String × τ))
    (k : String) (v : τ) (hmem : (k, v) ∈ sd) (ms : List ℕ)
    (hms : modelSD.lookup k = some ms) (hne : shape v ≠ ms) :
    (k, if ms.length ≤ 3 then v else inflateFn v (ms.getD 2 0) center)
      ∈ processStateDict shape inflateFn center modelSD sd := by
  induction sd with
  | nil => cases hmem
  | cons e rest ih =>
    rcases List.mem_cons.mp hmem with h | h
    · subst h
      simp only [processStateDict, hms]
      rw [if_pos hne]
      exact List.mem_cons_self _ _
    · obtain ⟨k', v'⟩ := e
      exact List.mem_cons_of_mem _ (ih h)

/-- C8 witness: a live parameter of rank 5 whose third dimension is 6
triggers inflation of the mismatched checkpoint entry with `time_dim = 6`;
(the tensor type is `ℕ` with a constant shape map and an inflation function
recording its arguments). -/
theorem c8_inflation_policy_witness :
    (("w", if ([2, 2, 6, 3, 3] : List ℕ).length ≤ 3 then 7
        else (fun v t _ => v * 100 + t) 7 (([2, 2, 6, 3, 3] : List ℕ).getD 2 0) true)
      ∈ processStateDict (fun _ : ℕ => ([2, 2, 3, 3] : List ℕ))
        (fun v t _ => v * 100 + t) true [("w", [2, 2, 6, 3, 3])] [("w", 7)]) :=
  c8_inflation_policy (fun _ : ℕ => ([2, 2, 3, 3] : List ℕ))
    (fun v t _ => v * 100 + t) true [("w", [2, 2, 6, 3, 3])] [("w", 7)]
    "w" 7 (by decide) [2, 2, 6, 3, 3] (by decide) (by decide)

/-! ### Optimizer parameter grouping, from `build_optimizer_and_scheduler`
(optimizers.py lines 16-43)

An `nn.Module` tree carries, at each node, the module's kind (normalization
layer or not), its directly-owned named parameters, and its named
submodules.  `named_parameters` yields dotted names; the dots are pre-split,
so a name is a `List String` of components.  The tree of submodules is a
mutual inductive so that all functions are structurally recursive. -/

/-- The runtime class of a module as far as the grouping policy cares:
`nn.LayerNorm`, the Triton `RMSNorm`, or anything else. -/
inductive NormKind where
  | layerNorm
  | rmsNorm
  | other
deriving DecidableEq

/-- One `nn.Parameter`: an identity tag and the truthiness of its
`_no_weight_decay` attribute (set by the Mamba implementation). -/
structure Param where
  pid : ℕ
  noWeightDecay : Bool
deriving DecidableEq

mutual
inductive NNModule where
  | mk (kind : NormKind) (params : List (String × Param)) (subs : NNModuleList)
inductive NNModuleList where
  | nil
  | cons (name : String) (m : NNModule) (rest : NNModuleList)
end

def NNModule.kind : NNModule → NormKind
  | .mk k _ _ => k

def NNModule.params : NNModule → List (String × Param)
  | .mk _ ps _ => ps

def NNModule.subs : NNModule → NNModuleList
  | .mk _ _ s => s

def NNModuleList.toList : NNModuleList → List (String × NNModule)
  | .nil => []
  | .cons n m rest => (n, m) :: rest.toList

/-! `namedParameters` models `model.named_parameters()` with each dotted name
already split on `"."`: the module's own parameters first, then each
submodule's parameters depth-first, in registration order — the traversal
order of `torch.nn.Module.named_parameters`. -/

mutual
def namedParameters : NNModule → List (List String × Param)
  | .mk _ ps subs =>
    ps.map (fun np => ([np.1], np.2)) ++ namedParametersList subs
def namedParametersList : NNModuleList → List (List String × Param)
  | .nil => []
  | .cons n m rest =>
    (namedParameters m).map (fun e => (n :: e.1, e.2)) ++ namedParametersList rest
end

/-! `wfModule` is well-formedness of a module tree as guaranteed by PyTorch:
at every node the submodule names are distinct (submodules live in an
attribute dict). -/

mutual
def wfModule : NNModule → Bool
  | .mk _ _ subs =>
    decide ((subs.toList.map Prod.fst).Nodup) && wfModuleList subs
def wfModuleList : NNModuleList → Bool
  | .nil => true
  | .cons _ m rest => wfModule m && wfModuleList rest
end

/-- `getattr(parent, k)` restricted to submodule attributes. -/
def getSubmodule : NNModuleList → String → Option NNModule
  | .nil, _ => none
  | .cons n m rest, a => if n = a then some m else getSubmodule rest a

/-- The parent-module walk of optimizers.py lines 23-26
(`parent = model; for k in attrs: parent = getattr(parent, k)`); an
`AttributeError` is `none`. -/
def resolveParent : NNModule → List String → Option NNModule
  | m, [] => some m
  | m, a :: rest =>
    match getSubmodule m.subs a with
    | some sub => resolveParent sub rest
    | none => none

/-- The bucketing loop of `build_optimizer_and_scheduler` (optimizers.py
lines 17-34): per entry, `*attrs, name = name.split(".")`, resolve the
parent module, then append the parameter to `params_no_wd` when the parent
is a normalization layer or the final name component is `"bias"`, else when
its `_no_weight_decay` marker is set, and to `params` otherwise.  Returns
`(params, params_no_wd)`. -/
def groupLoop (model : NNModule) :
    List (List String × Param) → Option (List Param × List Param)
  | [] => some ([], [])
  | e :: rest =>
    match e.1.getLast?, resolveParent model e.1.dropLast, groupLoop model rest with
    | some name, some parent, some (params, params_no_wd) =>
      if parent.kind = NormKind.layerNorm ∨ parent.kind = NormKind.rmsNorm
          ∨ name = "bias" then
        some (params, e.2 :: params_no_wd)
      else if e.2.noWeightDecay then
        some (params, e.2 :: params_no_wd)
      else
        some (e.2 :: params, params_no_wd)
    | _, _, _ => none

/-- The parameter grouping of `build_optimizer_and_scheduler` (optimizers.py
lines 16-43); the subsequent `AdamW`/`LambdaLR` construction consumes the two
buckets unchanged and is external. -/
def build_optimizer_and_scheduler (model : NNModule) :
    Option (List Param × List Param) :=
  groupLoop model (namedParameters model)

/-- The no-weight-decay condition of the claim: the owning submodule is a
normalization layer, or the final name component is exactly `"bias"`, or the
parameter carries the explicit no-decay marker. -/
def noDecayEntry (model : NNModule) (e : List String × Param) : Bool :=
  match resolveParent model e.1.dropLast with
  | some parent =>
    decide (parent.kind = NormKind.layerNorm ∨ parent.kind = NormKind.rmsNorm
      ∨ e.1.getLast? = some "bias") || e.2.noWeightDecay
  | none => false

/-! #### Claim C7 -/

theorem namedParametersList_ne_nil :
    ∀ (ml : NNModuleList), ∀ e ∈ namedParametersList ml, e.1 ≠ []
  | .nil, e, he => by simp [namedParametersList] at he
  | .cons n m rest, e, he => by
    rw [namedParametersList] at he
    rcases List.mem_append.mp he with h | h
    · obtain ⟨e', _, rfl⟩ := List.mem_map.mp h
      simp
    · exact namedParametersList_ne_nil rest e h

theorem namedParameters_ne_nil (m : NNModule) :
    ∀ e ∈ namedParameters m, e.1 ≠ [] := by
  obtain ⟨k, ps, subs⟩ := m
  intro e he
  rw [namedParameters] at he
  rcases List.mem_append.mp he with h | h
  · obtain ⟨np, _, rfl⟩ := List.mem_map.mp h
    simp
  · exact namedParametersList_ne_nil subs e h

theorem namedParametersList_mem :
    ∀ (ml : NNModuleList), ∀ e ∈ namedParametersList ml,
      ∃ sn sm e', (sn, sm) ∈ ml.toList ∧ e' ∈ namedParameters sm ∧
        e = (sn :: e'.1, e'.2)
  | .nil, e, he => by simp [namedParametersList] at he
  | .cons n m rest, e, he => by
    rw [namedParametersList] at he
    rcases List.mem_append.mp he with h | h
    · obtain ⟨e', he', rfl⟩ := List.mem_map.mp h
      exact ⟨n, m, e', by simp [NNModuleList.toList], he', rfl⟩
    · obtain ⟨sn, sm, e', hmem, he', rfl⟩ := namedParametersList_mem rest e h
      exact ⟨sn, sm, e', by simp [NNModuleList.toList, hmem], he', rfl⟩

theorem wfModuleList_mem :
    ∀ (ml : NNModuleList), wfModuleList ml = true →
      ∀ s ∈ ml.toList, wfModule s.2 = true
  | .nil, _, s, hs => by simp [NNModuleList.toList] at hs
  | .cons n m rest, hwf, s, hs => by
    rw [wfModuleList, Bool.and_eq_true] at hwf
    rw [NNModuleList.toList] at hs
    rcases List.mem_cons.mp hs with h | h
    · rw [h]; exact hwf.1
    · exact wfModuleList_mem rest hwf.2 s h

theorem sizeOf_mem_toList :
    ∀ (ml : NNModuleList) (sn : String) (sm : NNModule),
      (sn, sm) ∈ ml.toList → sizeOf sm < sizeOf ml
  | .nil, sn, sm, h => by simp [NNModuleList.toList] at h
  | .cons n m rest, sn, sm, h => by
    rw [NNModuleList.toList] at h
    rcases List.mem_cons.mp h with h | h
    · cases h
      simp
      omega
    · have := sizeOf_mem_toList rest sn sm h
      simp
      omega

theorem getSubmodule_eq :
    ∀ (ml : NNModuleList) (sn : String) (sm : NNModule),
      (ml.toList.map Prod.fst).Nodup → (sn, sm) ∈ ml.toList →
      getSubmodule ml sn = some sm
  | .nil, sn, sm, _, h => by simp [NNModuleList.toList] at h
  | .cons n m rest, sn, sm, hnd, h => by
    rw [NNModuleList.toList] at h hnd
    rw [List.map_cons, List.nodup_cons] at hnd
    rcases List.mem_cons.mp h with h | h
    · cases h
      rw [getSubmodule, if_pos rfl]
    · have hne : n ≠ sn := by
        intro hh
        subst hh
        exact hnd.1 (List.mem_map.mpr ⟨(n, sm), h, rfl⟩)
      rw [getSubmodule, if_neg hne]
      exact getSubmodule_eq rest sn sm hnd.2 h

theorem resolveParent_of_mem :
    ∀ (fuel : ℕ) (m : NNModule), sizeOf m ≤ fuel → wfModule m = true →
      ∀ e ∈ namedParameters m, ∃ p, resolveParent m e.1.dropLast = some p := by
  intro fuel
  induction fuel with
  | zero =>
    intro m hsz
    exfalso
    obtain ⟨k, ps, subs⟩ := m
    have h1 : 1 ≤ sizeOf (NNModule.mk k ps subs) := by simp; omega
    omega
  | succ fuel ih =>
    intro m hsz hwf e he
    obtain ⟨k, ps, subs⟩ := m
    rw [namedParameters] at he
    rw [wfModule, Bool.and_eq_true, decide_eq_true_eq] at hwf
    rcases List.mem_append.mp he with h | h
    · obtain ⟨np, _, rfl⟩ := List.mem_map.mp h
      exact ⟨NNModule.mk k ps subs, rfl⟩
    · obtain ⟨sn, sm, e', hmem, he', rfl⟩ := namedParametersList_mem subs e h
      have hne : e'.1 ≠ [] := namedParameters_ne_nil sm e' he'
      have hdl : (sn :: e'.1).dropLast = sn :: e'.1.dropLast :=
        List.dropLast_cons_of_ne_nil hne
      have hsub : getSubmodule subs sn = some sm :=
        getSubmodule_eq subs sn sm hwf.1 hmem
      have hwfs : wfModule sm = true := wfModuleList_mem subs hwf.2 (sn, sm) hmem
      have hszm : sizeOf sm ≤ fuel := by
        have h1 := sizeOf_mem_toList subs sn sm hmem
        have h2 : sizeOf subs < sizeOf (NNModule.mk k ps subs) := by simp
        omega
      obtain ⟨p, hp⟩ := ih sm hszm hwfs e' he'
      refine ⟨p, ?_⟩
      rw [hdl, resolveParent]
      simp only [NNModule.subs, hsub]
      exact hp

theorem groupLoop_eq (model : NNModule) :
    ∀ (l : List (List String × Param)),
      (∀ e ∈ l, e.1 ≠ [] ∧ ∃ p, resolveParent model e.1.dropLast = some p) →
      groupLoop model l = some
        ((l.filter (fun e => !(noDecayEntry model e))).map Prod.snd,
         (l.filter (fun e => noDecayEntry model e)).map Prod.snd) := by
  intro l
  induction l with
  | nil => intro _; rfl
  | cons e rest ih =>
    intro hl
    obtain ⟨hne, p, hp⟩ := hl e (List.mem_cons_self e rest)
    have hnm : ∃ nm, e.1.getLast? = some nm := by
      cases hgl : e.1.getLast? with
      | some a => exact ⟨a, rfl⟩
      | none => exact absurd (List.getLast?_eq_none_iff.mp hgl) hne
    obtain ⟨nm, hnm⟩ := hnm
    have hrest := ih (fun x hx => hl x (List.mem_cons_of_mem e hx))
    have hcond : noDecayEntry model e
        = (decide (p.kind = NormKind.layerNorm ∨ p.kind = NormKind.rmsNorm
            ∨ nm = "bias") || e.2.noWeightDecay) := by
      simp only [noDecayEntry, hp, hnm, Option.some.injEq]
    simp only [groupLoop, hnm, hp, hrest]
    by_cases hmain : p.kind = NormKind.layerNorm ∨ p.kind = NormKind.rmsNorm
        ∨ nm = "bias"
    · have hnde : noDecayEntry model e = true := by
        rw [hcond, decide_eq_true hmain]
        simp
      rw [if_pos hmain, List.filter_cons, List.filter_cons, hnde]
      simp
    · by_cases hmark : e.2.noWeightDecay
      · have hnde : noDecayEntry model e = true := by
          rw [hcond, hmark]
          simp
        rw [if_neg hmain, if_pos hmark, List.filter_cons, List.filter_cons, hnde]
        simp
      · have hnde : noDecayEntry model e = false := by
          rw [hcond]
          simp [hmain, hmark]
        rw [if_neg hmain, if_neg hmark, List.filter_cons, List.filter_cons, hnde]
        simp

theorem filter_length_partition {β : Type} (c : β → Bool) :
    ∀ l : List β,
      (l.filter (fun x => !(c x))).length + (l.filter c).length = l.length := by
  intro l
  induction l with
  | nil => rfl
  | cons a rest ih =>
    rw [List.filter_cons, List.filter_cons]
    cases h : c a <;> simp [h] <;> omega

/-- C7: the parameter grouping is a pure partition: `groupLoop` succeeds on a
well-formed module tree and its two buckets are exactly the parameters whose
no-decay condition (`noDecayEntry`: normalization-layer parent, final name
component `"bias"`, or explicit no-decay marker) is false resp. true, each in
traversal insertion order; the bucket sizes sum to the parameter count, so
every parameter lands in exactly one bucket. -/
theorem c7_parameter_grouping (model : NNModule) (hwf : wfModule model = true) :
    build_optimizer_and_scheduler model = some
      (((namedParameters model).filter
          (fun e => !(noDecayEntry model e))).map Prod.snd,
       ((namedParameters model).filter
          (fun e => noDecayEntry model e)).map Prod.snd) ∧
    ((namedParameters model).filter (fun e => !(noDecayEntry model e))).length
      + ((namedParameters model).filter (fun e => noDecayEntry model e)).length
      = (namedParameters model).length := by
  constructor
  · rw [build_optimizer_and_scheduler]
    apply groupLoop_eq
    intro e he
    exact ⟨namedParameters_ne_nil model e he,
      resolveParent_of_mem (sizeOf model) model le_rfl hwf e he⟩
  · exact filter_length_partition _ _

/-- A concrete model for the C7 witness: a root with a `weight` and a `bias`
parameter, a LayerNorm submodule `norm` with a `weight`, and a mixer
submodule `mix` with a marked `A_log` parameter and an unmarked `weight`. -/
def exampleModel : NNModule :=
  .mk .other [("weight", ⟨1, false⟩), ("bias", ⟨2, false⟩)]
    (.cons "norm" (.mk .layerNorm [("weight", ⟨3, false⟩)] .nil)
      (.cons "mix" (.mk .other [("A_log", ⟨4, true⟩), ("weight", ⟨5, false⟩)] .nil)
        .nil))

/-- C7 witness: the grouping of `exampleModel`. -/
theorem c7_parameter_grouping_witness :
    build_optimizer_and_scheduler exampleModel = some
      (((namedParameters exampleModel).filter
          (fun e => !(noDecayEntry exampleModel e))).map Prod.snd,
       ((namedParameters exampleModel).filter
          (fun e => noDecayEntry exampleModel e)).map Prod.snd) ∧
    ((namedParameters exampleModel).filter
        (fun e => !(noDecayEntry exampleModel e))).length
      + ((namedParameters exampleModel).filter
          (fun e => noDecayEntry exampleModel e)).length
      = (namedParameters exampleModel).length :=
  c7_parameter_grouping exampleModel (by decide)

end Plasmid
